import Mathlib

/-!
# hashlittle2: a 64-bit variant of Bob Jenkins' lookup3 hashlittle

A shallow embedding of `hashlittle2.go` and of the table of
`hashlittle2_test.go`, followed by the properties proved about them.

Conventions of the embedding

* a Go `uint32` is a natural number kept below `2^32`; every arithmetic
  statement of the source is followed by an explicit reduction modulo `2^32`;
* a Go `uint64` is a natural number kept below `2^64`;
* a Go `byte` is an element of `Fin 256`, a `[]byte` is a list of them;
* an indexing expression `k[i]` is the partial `k[i]?`; a function that
  indexes returns an `Option`, where `none` stands for the run-time panic
  of an index out of range;
* a Go `error` is an `Option String`, `none` being `nil`.
-/

namespace hashlittle2

/-! ## Machine arithmetic -/

/-- A Go byte. -/
abbrev Byte := Fin 256

/-- Conversion `byte(x)` of an unsigned integer: the low eight bits. -/
def toByte (x : Nat) : Byte := ⟨x % 256, Nat.mod_lt x (by decide)⟩

/-- Wrapping `uint32` addition, `x + y`. -/
def add32 (x y : Nat) : Nat := (x + y) % 2 ^ 32

/-- Wrapping `uint32` subtraction, `x - y`. -/
def sub32 (x y : Nat) : Nat := (x + (2 ^ 32 - y % 2 ^ 32)) % 2 ^ 32

/-- Left shift of a `uint32` by a constant, `x << n`: the bits shifted out are lost. -/
def shl32 (x n : Nat) : Nat := (x <<< n) % 2 ^ 32

/-- Right shift of a `uint32` by a constant, `x >> n`. -/
def shr32 (x n : Nat) : Nat := x >>> n

/-! ## The hasher state -/

/-- The Go type `sum64`: `type sum64 struct { c, b uint32 }`. -/
structure sum64 where
  c : Nat
  b : Nat
deriving DecidableEq

/-- Both fields of a state are `uint32` values. -/
def sum64.wf (s : sum64) : Prop := s.c < 2 ^ 32 ∧ s.b < 2 ^ 32

instance (s : sum64) : Decidable s.wf :=
  inferInstanceAs (Decidable (s.c < 2 ^ 32 ∧ s.b < 2 ^ 32))

/-- The constructor `HashLittle2()`: `s := sum64{}`, both fields zero. -/
def HashLittle2 : sum64 := { c := 0, b := 0 }

/-- The method `Reset`: `s.c = 0; s.b = 0`. -/
def sum64.Reset (s : sum64) : sum64 := { s with c := 0, b := 0 }

/-- The three local variables `a, b, c` of `Write`. -/
structure Work where
  a : Nat
  b : Nat
  c : Nat
deriving DecidableEq

/-- What a call of `Write` leaves behind: the state of the receiver and the
two returned values `(int, error)`. -/
structure WriteResult where
  s : sum64
  n : Nat
  err : Option String
deriving DecidableEq

/-! ## `Write` -/

/-- The twelve loading statements at the head of the loop body,
`a += uint32(k[0])` up to `c += uint32(k[11]) << 24`. -/
def loadBlock (k : List Byte) (w : Work) : Option Work := do
  let a := w.a
  let b := w.b
  let c := w.c
  let a := add32 a (← k[0]?).val
  let a := add32 a (shl32 (← k[1]?).val 8)
  let a := add32 a (shl32 (← k[2]?).val 16)
  let a := add32 a (shl32 (← k[3]?).val 24)
  let b := add32 b (← k[4]?).val
  let b := add32 b (shl32 (← k[5]?).val 8)
  let b := add32 b (shl32 (← k[6]?).val 16)
  let b := add32 b (shl32 (← k[7]?).val 24)
  let c := add32 c (← k[8]?).val
  let c := add32 c (shl32 (← k[9]?).val 8)
  let c := add32 c (shl32 (← k[10]?).val 16)
  let c := add32 c (shl32 (← k[11]?).val 24)
  pure { a := a, b := b, c := c }

/-- The statements between the comment `mix(a,b,c)` and `k = k[12:]`. -/
def mix (w : Work) : Work :=
  let a := w.a
  let b := w.b
  let c := w.c
  let a := sub32 a c
  let a := a ^^^ (shl32 c 4 ||| shr32 c 28)
  let c := add32 c b
  let b := sub32 b a
  let b := b ^^^ (shl32 a 6 ||| shr32 a 26)
  let a := add32 a c
  let c := sub32 c b
  let c := c ^^^ (shl32 b 8 ||| shr32 b 24)
  let b := add32 b a
  let a := sub32 a c
  let a := a ^^^ (shl32 c 16 ||| shr32 c 16)
  let c := add32 c b
  let b := sub32 b a
  let b := b ^^^ (shl32 a 19 ||| shr32 a 13)
  let a := add32 a c
  let c := sub32 c b
  let c := c ^^^ (shl32 b 4 ||| shr32 b 28)
  let b := add32 b a
  { a := a, b := b, c := c }

/-- The loop `for len(k) > 12 { ... k = k[12:] }`; it returns the slice and
the local variables with which the loop is left. -/
def blockLoop (k : List Byte) (w : Work) : Option (List Byte × Work) :=
  if _h : k.length > 12 then
    match loadBlock k w with
    | none => none
    | some w1 => blockLoop (k.drop 12) (mix w1)
  else
    some (k, w)
termination_by k.length
decreasing_by simp only [List.length_drop]; omega

/-- How the `switch` statement is left: by the `return` of `case 0`, or by
running off the end of a case into the statements after the `switch`. -/
inductive Flow where
  | ret (s : sum64)
  | next (w : Work)
deriving DecidableEq

/-- The body of `case 1`, which does not fall through. -/
def case1 (k : List Byte) (w : Work) : Option Flow := do
  let w := { w with a := add32 w.a (← k[0]?).val }
  pure (Flow.next w)

/-- The body of `case 2` and its `fallthrough`. -/
def case2 (k : List Byte) (w : Work) : Option Flow := do
  let w := { w with a := add32 w.a (shl32 (← k[1]?).val 8) }
  case1 k w

/-- The body of `case 3` and its `fallthrough`. -/
def case3 (k : List Byte) (w : Work) : Option Flow := do
  let w := { w with a := add32 w.a (shl32 (← k[2]?).val 16) }
  case2 k w

/-- The body of `case 4` and its `fallthrough`. -/
def case4 (k : List Byte) (w : Work) : Option Flow := do
  let w := { w with a := add32 w.a (shl32 (← k[3]?).val 24) }
  case3 k w

/-- The body of `case 5` and its `fallthrough`. -/
def case5 (k : List Byte) (w : Work) : Option Flow := do
  let w := { w with b := add32 w.b (← k[4]?).val }
  case4 k w

/-- The body of `case 6` and its `fallthrough`. -/
def case6 (k : List Byte) (w : Work) : Option Flow := do
  let w := { w with b := add32 w.b (shl32 (← k[5]?).val 8) }
  case5 k w

/-- The body of `case 7` and its `fallthrough`. -/
def case7 (k : List Byte) (w : Work) : Option Flow := do
  let w := { w with b := add32 w.b (shl32 (← k[6]?).val 16) }
  case6 k w

/-- The body of `case 8` and its `fallthrough`. -/
def case8 (k : List Byte) (w : Work) : Option Flow := do
  let w := { w with b := add32 w.b (shl32 (← k[7]?).val 24) }
  case7 k w

/-- The body of `case 9` and its `fallthrough`. -/
def case9 (k : List Byte) (w : Work) : Option Flow := do
  let w := { w with c := add32 w.c (← k[8]?).val }
  case8 k w

/-- The body of `case 10` and its `fallthrough`. -/
def case10 (k : List Byte) (w : Work) : Option Flow := do
  let w := { w with c := add32 w.c (shl32 (← k[9]?).val 8) }
  case9 k w

/-- The body of `case 11` and its `fallthrough`. -/
def case11 (k : List Byte) (w : Work) : Option Flow := do
  let w := { w with c := add32 w.c (shl32 (← k[10]?).val 16) }
  case10 k w

/-- The body of `case 12` and its `fallthrough`. -/
def case12 (k : List Byte) (w : Work) : Option Flow := do
  let w := { w with c := add32 w.c (shl32 (← k[11]?).val 24) }
  case11 k w

/-- The statement `switch len(k) { case 12: ... case 0: ... }`. `case 0`
stores `c` and `b` and returns; a length matched by no case leaves the
variables as they are. -/
def tailSwitch (k : List Byte) (w : Work) : Option Flow :=
  match k.length with
  | 12 => case12 k w
  | 11 => case11 k w
  | 10 => case10 k w
  | 9 => case9 k w
  | 8 => case8 k w
  | 7 => case7 k w
  | 6 => case6 k w
  | 5 => case5 k w
  | 4 => case4 k w
  | 3 => case3 k w
  | 2 => case2 k w
  | 1 => case1 k w
  | 0 => some (Flow.ret { c := w.c, b := w.b })
  | _ => some (Flow.next w)

/-- The statements after the comment `final(a,b,c)`. -/
def final (w : Work) : Work :=
  let a := w.a
  let b := w.b
  let c := w.c
  let c := c ^^^ b
  let c := sub32 c (shl32 b 14 ||| shr32 b 18)
  let a := a ^^^ c
  let a := sub32 a (shl32 c 11 ||| shr32 c 21)
  let b := b ^^^ a
  let b := sub32 b (shl32 a 25 ||| shr32 a 7)
  let c := c ^^^ b
  let c := sub32 c (shl32 b 16 ||| shr32 b 16)
  let a := a ^^^ c
  let a := sub32 a (shl32 c 4 ||| shr32 c 28)
  let b := b ^^^ a
  let b := sub32 b (shl32 a 14 ||| shr32 a 18)
  let c := c ^^^ b
  let c := sub32 c (shl32 b 24 ||| shr32 b 8)
  { a := a, b := b, c := c }

/-- The seeding statements of `Write`: `a`, `b` and `c` are each
`0xdeadbeef + uint32(len(k)) + uint32(s.c)`, then `c += s.b`. -/
def seed (s : sum64) (k : List Byte) : Work :=
  let a := add32 (add32 0xdeadbeef (k.length % 2 ^ 32)) s.c
  let b := add32 (add32 0xdeadbeef (k.length % 2 ^ 32)) s.c
  let c := add32 (add32 0xdeadbeef (k.length % 2 ^ 32)) s.c
  let c := add32 c s.b
  { a := a, b := b, c := c }

/-- The method `Write`. -/
def sum64.Write (s : sum64) (data : List Byte) : Option WriteResult :=
  let k := data
  match blockLoop k (seed s k) with
  | none => none
  | some (k, w) =>
    match tailSwitch k w with
    | none => none
    | some (Flow.ret s1) => some { s := s1, n := data.length, err := none }
    | some (Flow.next w) =>
      let w := final w
      some { s := { c := w.c, b := w.b }, n := data.length, err := none }

/-! ## The observers -/

/-- The method `Size`. -/
def sum64.Size (_s : sum64) : Nat := 8

/-- The method `BlockSize`. -/
def sum64.BlockSize (_s : sum64) : Nat := 1

/-- The method `Sum64`: `(uint64(s.c) << 32) | uint64(s.b)`. -/
def sum64.Sum64 (s : sum64) : Nat := ((s.c <<< 32) % 2 ^ 64) ||| s.b

/-- The standard library's `binary.BigEndian.PutUint64(b, v)`, which stores
`byte(v >> 56)`, `byte(v >> 48)`, ..., `byte(v)` at `b[0]`, ..., `b[7]`. -/
def PutUint64 (b : List Byte) (v : Nat) : List Byte :=
  let b := b.set 0 (toByte (v >>> 56))
  let b := b.set 1 (toByte (v >>> 48))
  let b := b.set 2 (toByte (v >>> 40))
  let b := b.set 3 (toByte (v >>> 32))
  let b := b.set 4 (toByte (v >>> 24))
  let b := b.set 5 (toByte (v >>> 16))
  let b := b.set 6 (toByte (v >>> 8))
  let b := b.set 7 (toByte v)
  b

/-- The method `Sum`: the eight bytes of the packed value, appended to `in`. -/
def sum64.Sum (s : sum64) (inp : List Byte) : List Byte :=
  let v := ((s.c <<< 32) % 2 ^ 64) ||| s.b
  let rv := List.replicate 8 (0 : Byte)
  let rv := PutUint64 rv v
  inp ++ rv

/-! ## The algorithm as the specification words it -/

/-- The specification's `rotateLeft32(x, n) = (x << n) | (x >> (32 - n))`
on 32-bit words. -/
def rotateLeft32 (x n : Nat) : Nat := shl32 x n ||| shr32 x (32 - n)

/-- One line of the specification's mixing permutation,
`x -= z; x ^= rotateLeft32(z, r); z += y`; the new `x` and `z`. -/
def mixLine (r x y z : Nat) : Nat × Nat :=
  let x1 := (sub32 x z) ^^^ rotateLeft32 z r
  (x1, add32 z y)

/-- The specification's mixing permutation, with the rotate-left amounts
4, 6, 8, 16, 19, 4. -/
def specMix (w : Work) : Work :=
  let (a, c) := mixLine 4 w.a w.b w.c
  let (b, a) := mixLine 6 w.b c a
  let (c, b) := mixLine 8 c a b
  let (a, c) := mixLine 16 a b c
  let (b, a) := mixLine 19 b c a
  let (c, b) := mixLine 4 c a b
  { a := a, b := b, c := c }

/-- One line of the specification's finalization mix,
`x ^= y; x -= rotateLeft32(y, r)`. -/
def finalLine (r x y : Nat) : Nat := sub32 (x ^^^ y) (rotateLeft32 y r)

/-- The specification's finalization mix, with the rotate-left amounts
14, 11, 25, 16, 4, 14, 24. -/
def specFinal (w : Work) : Work :=
  let c := finalLine 14 w.c w.b
  let a := finalLine 11 w.a c
  let b := finalLine 25 w.b a
  let c := finalLine 16 c b
  let a := finalLine 4 a c
  let b := finalLine 14 b a
  let c := finalLine 24 c b
  { a := a, b := b, c := c }

/-- The little-endian 32-bit word made of the four bytes of `k` from
position `i` on, a byte that `k` does not have counting as zero. -/
def leWord (k : List Byte) (i : Nat) : Nat :=
  (k.getD i 0).val + (k.getD (i + 1) 0).val * 2 ^ 8 + (k.getD (i + 2) 0).val * 2 ^ 16
    + (k.getD (i + 3) 0).val * 2 ^ 24

/-- Adding the first three little-endian words of `k`, zero-padded, to
`a`, `b` and `c`. -/
def addWords (k : List Byte) (w : Work) : Work :=
  { a := add32 w.a (leWord k 0), b := add32 w.b (leWord k 4), c := add32 w.c (leWord k 8) }

/-- The specification's block loop: while more than 12 bytes remain, add
the next three words, mix, and advance by 12 bytes. -/
def specLoop : List Byte → Work → List Byte × Work
  | k0 :: k1 :: k2 :: k3 :: k4 :: k5 :: k6 :: k7 :: k8 :: k9 :: k10 :: k11 :: k12 :: rest, w =>
    specLoop (k12 :: rest)
      (specMix (addWords [k0, k1, k2, k3, k4, k5, k6, k7, k8, k9, k10, k11] w))
  | k, w => (k, w)

/-- The algorithm of the specification from the prior state `(c0, b0)`: the
pair `(c, b)` that it stores. -/
def specWrite (c0 b0 : Nat) (data : List Byte) : Nat × Nat :=
  let s0 := (0xdeadbeef + data.length + c0) % 2 ^ 32
  let (k, w) := specLoop data { a := s0, b := s0, c := add32 s0 b0 }
  let w := addWords k w
  let w := if 1 ≤ k.length then specFinal w else w
  (w.c, w.b)

/-- The reference: Jenkins' 32-bit `hashlittle(x, initval)` of lookup3. -/
def hashlittle (x : List Byte) (initval : Nat) : Nat :=
  let s0 := (0xdeadbeef + x.length + initval) % 2 ^ 32
  let (k, w) := specLoop x { a := s0, b := s0, c := s0 }
  match k with
  | [] => w.c
  | _ => (specFinal (addWords k w)).c

/-! ## The table of the test file -/

/-- The conversion `[]byte(text)` of a Go string: its UTF-8 bytes. -/
def bytesOf (text : String) : List Byte :=
  (text.toUTF8.data.toList).map (fun u => u.val)

/-- The Go type `golden` of the test file. -/
structure golden where
  sum : List Byte
  u64 : Nat
  text : String
deriving DecidableEq

/-- The table `golden32` of the test file. -/
def golden32 : List golden := [
  { sum := [0xde, 0xad, 0xbe, 0xef], u64 := 0xdeadbeef, text := "" },
  { sum := [0x58, 0xd6, 0x87, 0x8], u64 := 0x58d68708, text := "a" },
  { sum := [0xfb, 0xb3, 0xa8, 0xdf], u64 := 0xfbb3a8df, text := "ab" },
  { sum := [0xe, 0x39, 0x76, 0x31], u64 := 0x0e397631, text := "abc" },
  { sum := [0x49, 0x6f, 0x81, 0x9a], u64 := 0x496f819a, text := "sK2iisPVTchSsRXIBTPUSCWswVsWVB0s9Qsve" },
  { sum := [0xb0, 0x83, 0xcc, 0xe3], u64 := 0xb083cce3, text := "J4b58TgCOdroAvWzHN1HFZQQ" },
  { sum := [0xce, 0x4f, 0xb, 0xb5], u64 := 0xce4f0bb5, text := "LbycZRyoRYqYtw9dzyBOuvQQByaOUcY" },
  { sum := [0xde, 0xad, 0xbe, 0xef], u64 := 0xdeadbeef, text := "" },
  { sum := [0x93, 0x10, 0x42, 0x49], u64 := 0x93104249, text := "Sy2ZzcNt6avMfdQo4e2pQTjGs4hfAi7rQo" },
  { sum := [0x31, 0x1d, 0x95, 0xff], u64 := 0x311d95ff, text := "DmsUiSW65STrO9MYz9UZEiHoA9W" },
  { sum := [0xdc, 0xf0, 0xab, 0xfa], u64 := 0xdcf0abfa, text := "RL5" },
  { sum := [0x33, 0xea, 0xc7, 0xd8], u64 := 0x33eac7d8, text := "67" },
  { sum := [0x8, 0x5d, 0x88, 0x1a], u64 := 0x085d881a, text := "NJz02SkBRGkGn9d0nztLLSL9g8YW3p4d7xAfgB" },
  { sum := [0xaa, 0xbe, 0x2, 0xcb], u64 := 0xaabe02cb, text := "C" },
  { sum := [0xba, 0xdd, 0xeb, 0xe8], u64 := 0xbaddebe8, text := "6V0CbxRjAuvTgONMsMM4f" },
  { sum := [0x7d, 0xe6, 0x5c, 0xf8], u64 := 0x7de65cf8, text := "UpAx2XrCe23Dupo4aePyuUFyIJMQTg" },
  { sum := [0xa6, 0xed, 0x36, 0x3d], u64 := 0xa6ed363d, text := "yDVs38VovVv7qUbzOSzvSbbIwdeW4er" },
  { sum := [0x65, 0x72, 0xe6, 0x3c], u64 := 0x6572e63c, text := "qfFZyU" },
  { sum := [0x2b, 0xd4, 0x56, 0x51], u64 := 0x2bd45651, text := "5Em2SulDbzArw6j" },
  { sum := [0x3b, 0x8e, 0x14, 0x3e], u64 := 0x3b8e143e, text := "kkscBEhp" },
  { sum := [0x49, 0x2f, 0xc4, 0x2], u64 := 0x492fc402, text := "Zg5yRgd6dsnz02zPeSi6a4PjaRzD8Qdgo" },
  { sum := [0x4c, 0xd5, 0x61, 0x37], u64 := 0x4cd56137, text := "uSHMkV6Fvhcaald2j2RdYU96ctq" },
  { sum := [0xa2, 0x57, 0x4d, 0xb], u64 := 0xa2574d0b, text := "7BakZCTxLR" },
  { sum := [0xb6, 0xbd, 0x8e, 0x51], u64 := 0xb6bd8e51, text := "URvZqDQRaPZMy3Fpi5nz" },
  { sum := [0x34, 0x55, 0x69, 0x3c], u64 := 0x3455693c, text := "M5qKA3vUAmOJ17wIeBa0c4U6iwuAaxRF8L" },
  { sum := [0x93, 0x6d, 0x8f, 0x36], u64 := 0x936d8f36, text := "vvGwVWK2QDZRePcPhbEAZeNm6AB3oP0TCb" },
  { sum := [0x54, 0x95, 0xf1, 0x16], u64 := 0x5495f116, text := "IJZpZ2tJ4SaqNEz25oV6ceBxSCX4lqF8ElmwXfw" },
  { sum := [0x98, 0x47, 0x30, 0x79], u64 := 0x98473079, text := "7LdX6NWCjkTeQbTYS4S2rzMrbNFPleXbGWeSQt" },
  { sum := [0x4b, 0x75, 0x27, 0x17], u64 := 0x4b752717, text := "9rbidzBNqzuqazhmkQENPnWrhJrxHiUQP" },
  { sum := [0x5f, 0x9d, 0xfd, 0xe8], u64 := 0x5f9dfde8, text := "qjXQN28P42FmdNaHl6iQLFcKT" },
  { sum := [0x46, 0x7a, 0xe8, 0x8e], u64 := 0x467ae88e, text := "Q47POeCdVhRZjTX0" },
  { sum := [0xa4, 0x12, 0x6b, 0xd], u64 := 0xa4126b0d, text := "UbyJd5VDvCaoKBJzdz7yE824h1dsAT4MpdZ" },
  { sum := [0xd9, 0xc5, 0xbe, 0xf7], u64 := 0xd9c5bef7, text := "qE4P" },
  { sum := [0x47, 0x23, 0xcc, 0xec], u64 := 0x4723ccec, text := "t2062iRqkiOEc65V7GMtIbAHt" },
  { sum := [0xde, 0xad, 0xbe, 0xef], u64 := 0xdeadbeef, text := "" },
  { sum := [0xb5, 0xda, 0xa2, 0x1a], u64 := 0xb5daa21a, text := "7bTduA" }
]

/-- The three working words are `uint32` values. -/
def Work.wf (w : Work) : Prop := w.a < 2 ^ 32 ∧ w.b < 2 ^ 32 ∧ w.c < 2 ^ 32

instance (w : Work) : Decidable w.wf :=
  inferInstanceAs (Decidable (w.a < 2 ^ 32 ∧ w.b < 2 ^ 32 ∧ w.c < 2 ^ 32))

/-- What the test `TestGolden64` requires of one entry of the table: from
any state of the hasher, `Reset` followed by `Write([]byte(g.text))` returns
`(len(g.text), nil)`, the first four bytes of `Sum(nil)` are `g.sum`, and
`Sum64() >> 32` is `g.u64`. -/
def goldenHolds (g : golden) : Prop :=
  ∀ s : sum64, ∃ r : WriteResult, s.Reset.Write (bytesOf g.text) = some r ∧
    r.n = (bytesOf g.text).length ∧ r.err = none ∧
    (r.s.Sum []).take 4 = g.sum ∧ r.s.Sum64 >>> 32 = g.u64

/-- The same requirement, stated on the specification's algorithm, where it
can be evaluated. -/
def goldenCheck (g : golden) : Bool :=
  let cb := specWrite 0 0 (bytesOf g.text)
  let s : sum64 := { c := cb.1, b := cb.2 }
  decide ((s.Sum []).take 4 = g.sum) && decide (s.Sum64 >>> 32 = g.u64)

/-- Decoding of a byte sequence as a big-endian unsigned integer. -/
def beDecode (l : List Byte) : Nat := l.foldl (fun acc x => acc * 256 + x.val) 0

/-! ## Definitions for the loop, the tail, the mixing step and the calls -/

/-- The loop of `Write` once more, with a counter of the passes through
its body added as third component of what it returns. -/
def blockLoopCount (k : List Byte) (w : Work) : Option (List Byte × Work × Nat) :=
  if _h : k.length > 12 then
    match loadBlock k w with
    | none => none
    | some w1 =>
      match blockLoopCount (k.drop 12) (mix w1) with
      | none => none
      | some (k1, w2, n) => some (k1, w2, n + 1)
  else
    some (k, w, 0)
termination_by k.length
decreasing_by simp only [List.length_drop]; omega

/-- Adding `v` to the working word number `i`: 0 is `a`, 1 is `b`, 2 is `c`. -/
def addToWord (w : Work) (i v : Nat) : Work :=
  match i with
  | 0 => { w with a := add32 w.a v }
  | 1 => { w with b := add32 w.b v }
  | _ => { w with c := add32 w.c v }

/-- One guarded addition of the specification's tail: if the tail has at
least `n` bytes, byte `k[n-1]`, shifted left by `8 * ((n-1) mod 4)`, is added
to the word number `(n-1) div 4`. -/
def guardedStep (k : List Byte) (w : Work) (n : Nat) : Work :=
  if k.length ≥ n then
    addToWord w ((n - 1) / 4) (shl32 (k.getD (n - 1) 0).val (8 * ((n - 1) % 4)))
  else w

/-- The specification's tail as an explicit sequence of guarded additions,
for `n` from 12 down to 1. -/
def guardedAdds (k : List Byte) (w : Work) : Work :=
  [12, 11, 10, 9, 8, 7, 6, 5, 4, 3, 2, 1].foldl (guardedStep k) w

/-- The mixing line `a -= c; a ^= rot(c, r); c += b`. -/
def mixA (r : Nat) (w : Work) : Work :=
  { a := sub32 w.a w.c ^^^ rotateLeft32 w.c r, b := w.b, c := add32 w.c w.b }

/-- The mixing line `b -= a; b ^= rot(a, r); a += c`. -/
def mixB (r : Nat) (w : Work) : Work :=
  { a := add32 w.a w.c, b := sub32 w.b w.a ^^^ rotateLeft32 w.a r, c := w.c }

/-- The mixing line `c -= b; c ^= rot(b, r); b += a`. -/
def mixC (r : Nat) (w : Work) : Work :=
  { a := w.a, b := add32 w.b w.a, c := sub32 w.c w.b ^^^ rotateLeft32 w.b r }

/-- Undoing `mixA r`: `c -= b; a ^= rot(c, r); a += c`. -/
def unmixA (r : Nat) (w : Work) : Work :=
  let c := sub32 w.c w.b
  { a := add32 (w.a ^^^ rotateLeft32 c r) c, b := w.b, c := c }

/-- Undoing `mixB r`: `a -= c; b ^= rot(a, r); b += a`. -/
def unmixB (r : Nat) (w : Work) : Work :=
  let a := sub32 w.a w.c
  { a := a, b := add32 (w.b ^^^ rotateLeft32 a r) a, c := w.c }

/-- Undoing `mixC r`: `b -= a; c ^= rot(b, r); c += b`. -/
def unmixC (r : Nat) (w : Work) : Work :=
  let b := sub32 w.b w.a
  { a := w.a, b := b, c := add32 (w.c ^^^ rotateLeft32 b r) b }

/-- The inverse of the mixing step: its six lines undone, the last first. -/
def unmix (w : Work) : Work :=
  unmixA 4 (unmixB 6 (unmixC 8 (unmixA 16 (unmixB 19 (unmixC 4 w)))))

/-- A call of one of the six methods of `sum64`, with its arguments. -/
inductive Call where
  | Reset
  | Write (data : List Byte)
  | Size
  | BlockSize
  | Sum (inp : List Byte)
  | Sum64
deriving DecidableEq

/-- What a call returns. -/
inductive Ret where
  | unit
  | written (n : Nat) (err : Option String)
  | int (n : Nat)
  | bytes (out : List Byte)
  | uint64 (v : Nat)
deriving DecidableEq

/-- The effect of a call on the receiver `s`: the state in which the call
leaves it, and what the call returns. `Reset` and `Write` assign to `s.c` and
`s.b`; the bodies of `Size`, `BlockSize`, `Sum` and `Sum64` hold no
assignment to a field of `s`. -/
def sum64.call (s : sum64) : Call → Option (sum64 × Ret)
  | Call.Reset => some (s.Reset, Ret.unit)
  | Call.Write data =>
    match s.Write data with
    | none => none
    | some r => some (r.s, Ret.written r.n r.err)
  | Call.Size => some (s, Ret.int s.Size)
  | Call.BlockSize => some (s, Ret.int s.BlockSize)
  | Call.Sum inp => some (s, Ret.bytes (s.Sum inp))
  | Call.Sum64 => some (s, Ret.uint64 s.Sum64)

/-- A call that only reads the state: `Size`, `BlockSize`, `Sum` or `Sum64`. -/
def Call.isObserver : Call → Bool
  | Call.Reset => false
  | Call.Write _ => false
  | _ => true

/-- A sequence of calls, one after the other: the final state and the
returned values, in order. -/
def sum64.run (s : sum64) : List Call → Option (sum64 × List Ret)
  | [] => some (s, [])
  | c :: cs =>
    match s.call c with
    | none => none
    | some (s1, r) =>
      match sum64.run s1 cs with
      | none => none
      | some (s2, rs) => some (s2, r :: rs)

/-- The statement of the specification about an input whose length is a
positive multiple of 12: the loop leaves a tail of length 0 and `Write`
stores `c` and `b` as the loop leaves them, without the finalization. -/
def finalBypassed (s : sum64) (data : List Byte) : Prop :=
  ∃ (k : List Byte) (w : Work), blockLoop data (seed s data) = some (k, w) ∧ k.length = 0 ∧
    s.Write data = some ⟨⟨w.c, w.b⟩, data.length, none⟩

/-! ## Auxiliary lemmas -/

/-- The statements of the loop body after the loads are the specification's
mixing permutation. -/
theorem mix_eq_specMix (w : Work) : mix w = specMix w := rfl
/-- The statements after the `switch` are the specification's finalization mix. -/
theorem final_eq_specFinal (w : Work) : final w = specFinal w := rfl

theorem loadBlock_cons (k0 k1 k2 k3 k4 k5 k6 k7 k8 k9 k10 k11 : Byte) (rest : List Byte) (w : Work) :
    loadBlock (k0 :: k1 :: k2 :: k3 :: k4 :: k5 :: k6 :: k7 :: k8 :: k9 :: k10 :: k11 :: rest) w
      = some (addWords [k0, k1, k2, k3, k4, k5, k6, k7, k8, k9, k10, k11] w) := by
  simp only [loadBlock, addWords, leWord, add32, shl32, Nat.shiftLeft_eq]
  simp
  refine ⟨?_, ?_, ?_⟩ <;> omega

/-- A slice of more than 12 bytes has thirteen leading bytes. -/
theorem exists_thirteen (k : List Byte) (h : k.length > 12) :
    ∃ k0 k1 k2 k3 k4 k5 k6 k7 k8 k9 k10 k11 k12 rest,
      k = k0 :: k1 :: k2 :: k3 :: k4 :: k5 :: k6 :: k7 :: k8 :: k9 :: k10 :: k11 :: k12 :: rest := by
  rcases k with _ | ⟨k0, _ | ⟨k1, _ | ⟨k2, _ | ⟨k3, _ | ⟨k4, _ | ⟨k5, _ | ⟨k6, _ | ⟨k7, _ | ⟨k8,
    _ | ⟨k9, _ | ⟨k10, _ | ⟨k11, _ | ⟨k12, rest⟩⟩⟩⟩⟩⟩⟩⟩⟩⟩⟩⟩⟩
  case cons.cons.cons.cons.cons.cons.cons.cons.cons.cons.cons.cons.cons =>
    exact ⟨k0, k1, k2, k3, k4, k5, k6, k7, k8, k9, k10, k11, k12, rest, rfl⟩
  all_goals simp at h

theorem specLoop_short (k : List Byte) (w : Work) (h : ¬ k.length > 12) :
    specLoop k w = (k, w) := by
  rcases k with _ | ⟨k0, _ | ⟨k1, _ | ⟨k2, _ | ⟨k3, _ | ⟨k4, _ | ⟨k5, _ | ⟨k6, _ | ⟨k7, _ | ⟨k8,
    _ | ⟨k9, _ | ⟨k10, _ | ⟨k11, _ | ⟨k12, rest⟩⟩⟩⟩⟩⟩⟩⟩⟩⟩⟩⟩⟩
  case cons.cons.cons.cons.cons.cons.cons.cons.cons.cons.cons.cons.cons =>
    simp at h
  all_goals rfl

theorem blockLoop_eq_specLoop (k : List Byte) (w : Work) :
    blockLoop k w = some (specLoop k w) := by
  induction k, w using specLoop.induct with
  | case1 k0 k1 k2 k3 k4 k5 k6 k7 k8 k9 k10 k11 k12 rest w ih =>
    rw [blockLoop]
    simp only [List.length_cons, gt_iff_lt, loadBlock_cons, List.drop_succ_cons, List.drop_zero]
    rw [dif_pos (by omega), mix_eq_specMix, ih, specLoop]
  | case2 k w hk =>
    have hlen : ¬ k.length > 12 := by
      intro h
      obtain ⟨k0, k1, k2, k3, k4, k5, k6, k7, k8, k9, k10, k11, k12, rest, e⟩ := exists_thirteen k h
      exact hk _ _ _ _ _ _ _ _ _ _ _ _ _ _ e
    rw [blockLoop, dif_neg hlen, specLoop_short k w hlen]

theorem add32_lt (x y : Nat) : add32 x y < 2 ^ 32 := Nat.mod_lt _ (by decide)
theorem sub32_lt (x y : Nat) : sub32 x y < 2 ^ 32 := Nat.mod_lt _ (by decide)
theorem shl32_lt (x n : Nat) : shl32 x n < 2 ^ 32 := Nat.mod_lt _ (by decide)
theorem shr32_lt (x n : Nat) (h : x < 2 ^ 32) : shr32 x n < 2 ^ 32 := by
  unfold shr32
  rw [Nat.shiftRight_eq_div_pow]
  exact lt_of_le_of_lt (Nat.div_le_self _ _) h

theorem rotateLeft32_lt (x n : Nat) (h : x < 2 ^ 32) : rotateLeft32 x n < 2 ^ 32 :=
  Nat.or_lt_two_pow (shl32_lt x n) (shr32_lt x _ h)

theorem addWords_wf (k : List Byte) (w : Work) : (addWords k w).wf :=
  ⟨add32_lt _ _, add32_lt _ _, add32_lt _ _⟩

theorem specMix_wf (w : Work) (h : w.wf) : (specMix w).wf := by
  obtain ⟨_, _, hc⟩ := h
  simp only [specMix, mixLine, Work.wf]
  refine ⟨add32_lt _ _, add32_lt _ _, ?_⟩
  iterate 6 refine Nat.xor_lt_two_pow (sub32_lt _ _) (rotateLeft32_lt _ _ ?_)
  exact hc

theorem specFinal_wf (w : Work) : (specFinal w).wf :=
  ⟨sub32_lt _ _, sub32_lt _ _, sub32_lt _ _⟩

theorem specLoop_wf (k : List Byte) (w : Work) (h : w.wf) : (specLoop k w).2.wf := by
  induction k, w using specLoop.induct with
  | case1 k0 k1 k2 k3 k4 k5 k6 k7 k8 k9 k10 k11 k12 rest w ih =>
    rw [specLoop]
    exact ih (specMix_wf _ (addWords_wf _ _))
  | case2 k w hk =>
    have hlen : ¬ k.length > 12 := by
      intro h
      obtain ⟨k0, k1, k2, k3, k4, k5, k6, k7, k8, k9, k10, k11, k12, rest, e⟩ := exists_thirteen k h
      exact hk _ _ _ _ _ _ _ _ _ _ _ _ _ _ e
    rw [specLoop_short k w hlen]; exact h

theorem specLoop_length (k : List Byte) (w : Work) : (specLoop k w).1.length ≤ 12 := by
  induction k, w using specLoop.induct with
  | case1 k0 k1 k2 k3 k4 k5 k6 k7 k8 k9 k10 k11 k12 rest w ih =>
    rw [specLoop]; exact ih
  | case2 k w hk =>
    have hlen : ¬ k.length > 12 := by
      intro h
      obtain ⟨k0, k1, k2, k3, k4, k5, k6, k7, k8, k9, k10, k11, k12, rest, e⟩ := exists_thirteen k h
      exact hk _ _ _ _ _ _ _ _ _ _ _ _ _ _ e
    rw [specLoop_short k w hlen]; simpa using hlen

theorem tailSwitch_nil (w : Work) : tailSwitch [] w = some (Flow.ret { c := w.c, b := w.b }) := rfl

theorem tailSwitch_eq_addWords (k : List Byte) (w : Work) (hw : w.wf) (h1 : 1 ≤ k.length)
    (h12 : k.length ≤ 12) : tailSwitch k w = some (Flow.next (addWords k w)) := by
  obtain ⟨ha, hb, hc⟩ := hw
  rcases k with _ | ⟨k0, _ | ⟨k1, _ | ⟨k2, _ | ⟨k3, _ | ⟨k4, _ | ⟨k5, _ | ⟨k6, _ | ⟨k7, _ | ⟨k8,
    _ | ⟨k9, _ | ⟨k10, _ | ⟨k11, _ | ⟨k12, rest⟩⟩⟩⟩⟩⟩⟩⟩⟩⟩⟩⟩⟩
  case nil => simp at h1
  case cons.cons.cons.cons.cons.cons.cons.cons.cons.cons.cons.cons.cons =>
    simp at h12
  all_goals
    simp only [tailSwitch, List.length_cons, List.length_nil, case12, case11, case10, case9, case8,
      case7, case6, case5, case4, case3, case2, case1, addWords, leWord, add32, shl32,
      Nat.shiftLeft_eq]
    simp
    omega

theorem addWords_nil (w : Work) (hw : w.wf) : addWords [] w = w := by
  obtain ⟨a, b, c⟩ := w
  obtain ⟨ha, hb, hc⟩ := hw
  simp only at ha hb hc
  simp only [addWords, leWord, add32, Work.mk.injEq]
  simp
  omega

theorem seed_eq (s : sum64) (k : List Byte) :
    seed s k = { a := (0xdeadbeef + k.length + s.c) % 2 ^ 32,
                 b := (0xdeadbeef + k.length + s.c) % 2 ^ 32,
                 c := add32 ((0xdeadbeef + k.length + s.c) % 2 ^ 32) s.b } := by
  simp only [seed, add32, Work.mk.injEq]
  refine ⟨?_, ?_, ?_⟩ <;> omega

theorem seed_wf (s : sum64) (k : List Byte) : (seed s k).wf :=
  ⟨add32_lt _ _, add32_lt _ _, add32_lt _ _⟩

/-- The method `Write` computes what the specification's algorithm computes,
returns the length of its argument, and returns no error. -/
theorem Write_eq_specWrite (s : sum64) (data : List Byte) :
    s.Write data = some { s := { c := (specWrite s.c s.b data).1, b := (specWrite s.c s.b data).2 },
                          n := data.length, err := none } := by
  have hwf := specLoop_wf data (seed s data) (seed_wf s data)
  have hlen := specLoop_length data (seed s data)
  simp only [sum64.Write, blockLoop_eq_specLoop, specWrite, ← seed_eq]
  by_cases h0 : (specLoop data (seed s data)).1 = []
  · rw [h0, tailSwitch_nil]
    simp [addWords_nil _ hwf]
  · have h1 : 1 ≤ (specLoop data (seed s data)).1.length := by
      rcases hk : (specLoop data (seed s data)).1 with _ | ⟨x, l⟩
      · exact absurd hk h0
      · simp
    rw [tailSwitch_eq_addWords _ _ hwf h1 hlen]
    simp [h1, final_eq_specFinal]

/-- After `Reset` a hasher is in the state of a new one. -/
theorem Reset_eq (s : sum64) : s.Reset = HashLittle2 := rfl

theorem specWrite_lt (c0 b0 : Nat) (data : List Byte) :
    (specWrite c0 b0 data).1 < 2 ^ 32 ∧ (specWrite c0 b0 data).2 < 2 ^ 32 := by
  simp only [specWrite]
  split
  · exact ⟨(specFinal_wf _).2.2, (specFinal_wf _).2.1⟩
  · exact ⟨(addWords_wf _ _).2.2, (addWords_wf _ _).2.1⟩

theorem Sum64_eq_add (s : sum64) (h : s.wf) : s.Sum64 = s.c * 2 ^ 32 + s.b := by
  obtain ⟨hc, hb⟩ := h
  unfold sum64.Sum64
  rw [Nat.shiftLeft_eq, Nat.mod_eq_of_lt (by omega), Nat.mul_comm, ← Nat.mul_add_lt_is_or hb]

theorem Sum64_shiftRight (s : sum64) (h : s.wf) : s.Sum64 >>> 32 = s.c := by
  rw [Sum64_eq_add s h, Nat.shiftRight_eq_div_pow]
  obtain ⟨hc, hb⟩ := h
  omega

theorem specState_wf (c0 b0 : Nat) (data : List Byte) :
    sum64.wf { c := (specWrite c0 b0 data).1, b := (specWrite c0 b0 data).2 } :=
  specWrite_lt c0 b0 data

theorem specWrite_zero_eq_hashlittle (x : List Byte) :
    (specWrite 0 0 x).1 = hashlittle x 0 := by
  have hs : add32 ((0xdeadbeef + x.length + 0) % 2 ^ 32) 0 = (0xdeadbeef + x.length + 0) % 2 ^ 32 := by
    simp [add32]
  have hwf := specLoop_wf x ⟨(0xdeadbeef + x.length + 0) % 2 ^ 32,
    (0xdeadbeef + x.length + 0) % 2 ^ 32, (0xdeadbeef + x.length + 0) % 2 ^ 32⟩
    ⟨Nat.mod_lt _ (by decide), Nat.mod_lt _ (by decide), Nat.mod_lt _ (by decide)⟩
  simp only [specWrite, hashlittle, hs]
  generalize specLoop x _ = kw at hwf ⊢
  obtain ⟨k, w⟩ := kw
  cases k with
  | nil => simp [addWords_nil _ hwf]
  | cons y l => simp

/-- The state that `Write` leaves consists of two `uint32` values. -/
theorem Write_wf (s : sum64) (data : List Byte) (r : WriteResult) (h : s.Write data = some r) :
    r.s.wf := by
  rw [Write_eq_specWrite] at h
  cases h
  exact specState_wf _ _ _

theorem goldenHolds_of_check (g : golden) (h : goldenCheck g = true) : goldenHolds g := by
  intro s
  refine ⟨_, Write_eq_specWrite _ _, rfl, rfl, ?_⟩
  simp only [goldenCheck, Bool.and_eq_true, decide_eq_true_eq] at h
  exact h

theorem golden32_check : ∀ g ∈ golden32, goldenCheck g = true := by decide


theorem toByte_eq (x y : Nat) (h : x % 256 = y % 256) : toByte x = toByte y := by
  simp only [toByte, Fin.mk.injEq]; exact h

/-- The method `Sum` appends the eight bytes of `Sum64()`, the most
significant first. -/
theorem Sum_eq (s : sum64) (inp : List Byte) :
    s.Sum inp = inp ++ [toByte (s.Sum64 >>> 56), toByte (s.Sum64 >>> 48), toByte (s.Sum64 >>> 40),
      toByte (s.Sum64 >>> 32), toByte (s.Sum64 >>> 24), toByte (s.Sum64 >>> 16),
      toByte (s.Sum64 >>> 8), toByte s.Sum64] := rfl

/-! ## Auxiliary lemmas on the loop, the tail and the mixing step -/

/-- The block loads succeed exactly on a slice of at least 12 bytes. -/
theorem loadBlock_isSome_iff (k : List Byte) (w : Work) :
    (loadBlock k w).isSome ↔ 12 ≤ k.length := by
  rcases k with _ | ⟨k0, _ | ⟨k1, _ | ⟨k2, _ | ⟨k3, _ | ⟨k4, _ | ⟨k5, _ | ⟨k6, _ | ⟨k7, _ | ⟨k8,
    _ | ⟨k9, _ | ⟨k10, _ | ⟨k11, rest⟩⟩⟩⟩⟩⟩⟩⟩⟩⟩⟩⟩
  case cons.cons.cons.cons.cons.cons.cons.cons.cons.cons.cons.cons =>
    rw [loadBlock_cons]; simp
  all_goals simp [loadBlock]

/-- The `switch` never indexes out of range. -/
theorem tailSwitch_isSome (k : List Byte) (w : Work) : (tailSwitch k w).isSome := by
  rcases k with _ | ⟨k0, _ | ⟨k1, _ | ⟨k2, _ | ⟨k3, _ | ⟨k4, _ | ⟨k5, _ | ⟨k6, _ | ⟨k7, _ | ⟨k8,
    _ | ⟨k9, _ | ⟨k10, _ | ⟨k11, _ | ⟨k12, rest⟩⟩⟩⟩⟩⟩⟩⟩⟩⟩⟩⟩⟩
  case cons.cons.cons.cons.cons.cons.cons.cons.cons.cons.cons.cons.cons =>
    simp [tailSwitch]
  all_goals
    simp [tailSwitch, case12, case11, case10, case9, case8, case7, case6, case5, case4, case3,
      case2, case1]

theorem specLoop_not_thirteen (k : List Byte)
    (hk : ∀ (k0 k1 k2 k3 k4 k5 k6 k7 k8 k9 k10 k11 k12 : Byte) (rest : List Byte),
      k = k0 :: k1 :: k2 :: k3 :: k4 :: k5 :: k6 :: k7 :: k8 :: k9 :: k10 :: k11 :: k12 :: rest →
        False) : ¬ k.length > 12 := by
  intro h
  obtain ⟨k0, k1, k2, k3, k4, k5, k6, k7, k8, k9, k10, k11, k12, rest, e⟩ := exists_thirteen k h
  exact hk _ _ _ _ _ _ _ _ _ _ _ _ _ _ e

/-- The counter of the instrumented loop: the loop makes `(len - 1) div 12` passes. -/
theorem blockLoopCount_eq (k : List Byte) (w : Work) :
    blockLoopCount k w = some ((specLoop k w).1, (specLoop k w).2, (k.length - 1) / 12) := by
  induction k, w using specLoop.induct with
  | case1 k0 k1 k2 k3 k4 k5 k6 k7 k8 k9 k10 k11 k12 rest w ih =>
    rw [blockLoopCount]
    simp only [List.length_cons, gt_iff_lt, loadBlock_cons, List.drop_succ_cons, List.drop_zero]
    rw [dif_pos (by omega), mix_eq_specMix, ih, specLoop]
    simp only [List.length_cons, Option.some.injEq, Prod.mk.injEq, true_and]
    omega
  | case2 k w hk =>
    have hlen := specLoop_not_thirteen k hk
    rw [blockLoopCount, dif_neg hlen, specLoop_short k w hlen]
    simp only [Option.some.injEq, Prod.mk.injEq, true_and]
    omega

/-- The slice with which the loop is left: the input without its first
`12 * ((len - 1) div 12)` bytes. -/
theorem specLoop_fst (k : List Byte) (w : Work) :
    (specLoop k w).1 = k.drop (12 * ((k.length - 1) / 12)) := by
  induction k, w using specLoop.induct with
  | case1 k0 k1 k2 k3 k4 k5 k6 k7 k8 k9 k10 k11 k12 rest w ih =>
    rw [specLoop, ih]
    have e : 12 * ((((k0 :: k1 :: k2 :: k3 :: k4 :: k5 :: k6 :: k7 :: k8 :: k9 :: k10 :: k11
        :: k12 :: rest).length - 1) / 12)) = 12 * (((k12 :: rest).length - 1) / 12) + 12 := by
      simp only [List.length_cons]; omega
    rw [e]
    simp only [List.drop_succ_cons]
  | case2 k w hk =>
    have hlen := specLoop_not_thirteen k hk
    rw [specLoop_short k w hlen]
    have e : 12 * ((k.length - 1) / 12) = 0 := by omega
    rw [e, List.drop_zero]

theorem specLoop_fst_length (k : List Byte) (w : Work) :
    (specLoop k w).1.length = k.length - 12 * ((k.length - 1) / 12) := by
  rw [specLoop_fst, List.length_drop]

/-- What `Write` stores, in terms of the slice and the variables with which
its loop is left. -/
theorem Write_of_blockLoop (s : sum64) (data k : List Byte) (w : Work)
    (h : blockLoop data (seed s data) = some (k, w)) :
    s.Write data = some ⟨(if 1 ≤ k.length then
        ⟨(final (addWords k w)).c, (final (addWords k w)).b⟩ else ⟨w.c, w.b⟩),
      data.length, none⟩ := by
  have hwf := specLoop_wf data (seed s data) (seed_wf s data)
  have hlen := specLoop_length data (seed s data)
  rw [blockLoop_eq_specLoop] at h
  simp only [Option.some.injEq] at h
  rw [h] at hwf hlen
  simp only at hwf hlen
  simp only [sum64.Write, blockLoop_eq_specLoop, h]
  by_cases h1 : 1 ≤ k.length
  · rw [tailSwitch_eq_addWords k w hwf h1 hlen, if_pos h1]
  · have hk : k = [] := by
      rcases k with _ | ⟨x, l⟩
      · rfl
      · simp at h1
    subst hk
    rw [tailSwitch_nil, if_neg h1]

/-- The fall-through `switch` on a tail of 1 to 12 bytes makes the guarded additions. -/
theorem tailSwitch_eq_guardedAdds (k : List Byte) (w : Work) (h1 : 1 ≤ k.length)
    (h12 : k.length ≤ 12) : tailSwitch k w = some (Flow.next (guardedAdds k w)) := by
  rcases k with _ | ⟨k0, _ | ⟨k1, _ | ⟨k2, _ | ⟨k3, _ | ⟨k4, _ | ⟨k5, _ | ⟨k6, _ | ⟨k7, _ | ⟨k8,
    _ | ⟨k9, _ | ⟨k10, _ | ⟨k11, _ | ⟨k12, rest⟩⟩⟩⟩⟩⟩⟩⟩⟩⟩⟩⟩⟩
  case nil => simp at h1
  case cons.cons.cons.cons.cons.cons.cons.cons.cons.cons.cons.cons.cons =>
    simp at h12
  all_goals
    have hb0 := k0.isLt
    simp only [tailSwitch, List.length_cons, List.length_nil, case12, case11, case10, case9, case8,
      case7, case6, case5, case4, case3, case2, case1, guardedAdds, guardedStep, addToWord,
      List.foldl_cons, List.foldl_nil, add32, shl32, Nat.shiftLeft_eq]
    simp
    try omega

theorem sub32_add32 (x y : Nat) (h : x < 2 ^ 32) : sub32 (add32 x y) y = x := by
  simp only [sub32, add32]; omega

theorem add32_sub32 (x y : Nat) (h : x < 2 ^ 32) : add32 (sub32 x y) y = x := by
  simp only [sub32, add32]; omega

theorem xor_xor_self (x y : Nat) : (x ^^^ y) ^^^ y = x := by
  rw [Nat.xor_assoc, Nat.xor_self, Nat.xor_zero]

theorem mixA_wf (r : Nat) (w : Work) (h : w.wf) : (mixA r w).wf :=
  ⟨Nat.xor_lt_two_pow (sub32_lt _ _) (rotateLeft32_lt _ _ h.2.2), h.2.1, add32_lt _ _⟩
theorem mixB_wf (r : Nat) (w : Work) (h : w.wf) : (mixB r w).wf :=
  ⟨add32_lt _ _, Nat.xor_lt_two_pow (sub32_lt _ _) (rotateLeft32_lt _ _ h.1), h.2.2⟩
theorem mixC_wf (r : Nat) (w : Work) (h : w.wf) : (mixC r w).wf :=
  ⟨h.1, add32_lt _ _, Nat.xor_lt_two_pow (sub32_lt _ _) (rotateLeft32_lt _ _ h.2.1)⟩
theorem unmixA_wf (r : Nat) (w : Work) (h : w.wf) : (unmixA r w).wf :=
  ⟨add32_lt _ _, h.2.1, sub32_lt _ _⟩
theorem unmixB_wf (r : Nat) (w : Work) (h : w.wf) : (unmixB r w).wf :=
  ⟨sub32_lt _ _, add32_lt _ _, h.2.2⟩
theorem unmixC_wf (r : Nat) (w : Work) (h : w.wf) : (unmixC r w).wf :=
  ⟨h.1, sub32_lt _ _, add32_lt _ _⟩

theorem unmixA_mixA (r : Nat) (w : Work) (h : w.wf) : unmixA r (mixA r w) = w := by
  obtain ⟨a, b, c⟩ := w
  obtain ⟨ha, hb, hc⟩ := h
  simp only at ha hb hc
  simp only [unmixA, mixA, sub32_add32 c b hc, xor_xor_self, add32_sub32 a c ha]
theorem unmixB_mixB (r : Nat) (w : Work) (h : w.wf) : unmixB r (mixB r w) = w := by
  obtain ⟨a, b, c⟩ := w
  obtain ⟨ha, hb, hc⟩ := h
  simp only at ha hb hc
  simp only [unmixB, mixB, sub32_add32 a c ha, xor_xor_self, add32_sub32 b a hb]
theorem unmixC_mixC (r : Nat) (w : Work) (h : w.wf) : unmixC r (mixC r w) = w := by
  obtain ⟨a, b, c⟩ := w
  obtain ⟨ha, hb, hc⟩ := h
  simp only at ha hb hc
  simp only [unmixC, mixC, sub32_add32 b a hb, xor_xor_self, add32_sub32 c b hc]

theorem mixA_unmixA (r : Nat) (w : Work) (h : w.wf) : mixA r (unmixA r w) = w := by
  obtain ⟨a, b, c⟩ := w
  obtain ⟨ha, hb, hc⟩ := h
  simp only at ha hb hc
  simp only [unmixA, mixA, add32_sub32 c b hc]
  rw [sub32_add32 _ _ (Nat.xor_lt_two_pow ha (rotateLeft32_lt _ _ (sub32_lt _ _))), xor_xor_self]
theorem mixB_unmixB (r : Nat) (w : Work) (h : w.wf) : mixB r (unmixB r w) = w := by
  obtain ⟨a, b, c⟩ := w
  obtain ⟨ha, hb, hc⟩ := h
  simp only at ha hb hc
  simp only [unmixB, mixB, add32_sub32 a c ha]
  rw [sub32_add32 _ _ (Nat.xor_lt_two_pow hb (rotateLeft32_lt _ _ (sub32_lt _ _))), xor_xor_self]
theorem mixC_unmixC (r : Nat) (w : Work) (h : w.wf) : mixC r (unmixC r w) = w := by
  obtain ⟨a, b, c⟩ := w
  obtain ⟨ha, hb, hc⟩ := h
  simp only at ha hb hc
  simp only [unmixC, mixC, add32_sub32 b a hb]
  rw [sub32_add32 _ _ (Nat.xor_lt_two_pow hc (rotateLeft32_lt _ _ (sub32_lt _ _))), xor_xor_self]

theorem mix_eq_lines (w : Work) :
    mix w = mixC 4 (mixB 19 (mixA 16 (mixC 8 (mixB 6 (mixA 4 w))))) := rfl

theorem mix_wf (w : Work) (h : w.wf) : (mix w).wf := by
  rw [mix_eq_lines]
  exact mixC_wf _ _ (mixB_wf _ _ (mixA_wf _ _ (mixC_wf _ _ (mixB_wf _ _ (mixA_wf _ _ h)))))

theorem unmix_wf (w : Work) (h : w.wf) : (unmix w).wf :=
  unmixA_wf _ _ (unmixB_wf _ _ (unmixC_wf _ _ (unmixA_wf _ _ (unmixB_wf _ _ (unmixC_wf _ _ h)))))

theorem unmix_mix (w : Work) (h : w.wf) : unmix (mix w) = w := by
  have h1 := mixA_wf 4 w h
  have h2 := mixB_wf 6 _ h1
  have h3 := mixC_wf 8 _ h2
  have h4 := mixA_wf 16 _ h3
  have h5 := mixB_wf 19 _ h4
  rw [mix_eq_lines, unmix, unmixC_mixC _ _ h5, unmixB_mixB _ _ h4, unmixA_mixA _ _ h3,
    unmixC_mixC _ _ h2, unmixB_mixB _ _ h1, unmixA_mixA _ _ h]

theorem mix_unmix (w : Work) (h : w.wf) : mix (unmix w) = w := by
  have h1 := unmixC_wf 4 w h
  have h2 := unmixB_wf 19 _ h1
  have h3 := unmixA_wf 16 _ h2
  have h4 := unmixC_wf 8 _ h3
  have h5 := unmixB_wf 6 _ h4
  rw [mix_eq_lines, unmix, mixA_unmixA _ _ h5, mixB_unmixB _ _ h4, mixC_unmixC _ _ h3,
    mixA_unmixA _ _ h2, mixB_unmixB _ _ h1, mixC_unmixC _ _ h]

/-- A zero byte appended to a slice is not seen by the zero-padded reads. -/
theorem getD_append_zero (k : List Byte) (i : Nat) :
    (k ++ [(0 : Byte)]).getD i 0 = k.getD i 0 := by
  induction k generalizing i with
  | nil => cases i <;> simp
  | cons x l ih =>
    cases i with
    | zero => simp
    | succ j => simpa using ih j

theorem addWords_append_zero (k : List Byte) (w : Work) :
    addWords (k ++ [(0 : Byte)]) w = addWords k w := by
  simp only [addWords, leWord, getD_append_zero]

theorem specLoop_append_zero (k : List Byte) (w : Work) (h : k.length % 12 ≠ 0) :
    specLoop (k ++ [(0 : Byte)]) w = ((specLoop k w).1 ++ [(0 : Byte)], (specLoop k w).2) := by
  induction k, w using specLoop.induct with
  | case1 k0 k1 k2 k3 k4 k5 k6 k7 k8 k9 k10 k11 k12 rest w ih =>
    have h1 : (k12 :: rest).length % 12 ≠ 0 := by
      simp only [List.length_cons] at h ⊢; omega
    have e : (k0 :: k1 :: k2 :: k3 :: k4 :: k5 :: k6 :: k7 :: k8 :: k9 :: k10 :: k11 :: k12 :: rest)
        ++ [(0 : Byte)] = k0 :: k1 :: k2 :: k3 :: k4 :: k5 :: k6 :: k7 :: k8 :: k9 :: k10 :: k11
          :: ((k12 :: rest) ++ [(0 : Byte)]) := rfl
    rw [e]
    simp only [List.cons_append] at ih ⊢
    rw [specLoop, specLoop, ih h1]
  | case2 k w hk =>
    have hlen := specLoop_not_thirteen k hk
    have hlen1 : ¬ (k ++ [(0 : Byte)]).length > 12 := by
      simp only [List.length_append, List.length_singleton]; omega
    rw [specLoop_short k w hlen, specLoop_short _ w hlen1]

/-- A trailing zero byte acts on the algorithm as one more unit of seed. -/
theorem specWrite_append_zero (c0 b0 : Nat) (x : List Byte) (h : x.length % 12 ≠ 0) :
    specWrite c0 b0 (x ++ [(0 : Byte)]) = specWrite ((c0 + 1) % 2 ^ 32) b0 x := by
  have hs : (0xdeadbeef + (x.length + 1) + c0) % 2 ^ 32
      = (0xdeadbeef + x.length + (c0 + 1) % 2 ^ 32) % 2 ^ 32 := by
    omega
  simp only [specWrite, List.length_append, List.length_singleton, hs,
    specLoop_append_zero _ _ h, addWords_append_zero]
  have hx : ∀ w : Work, 1 ≤ (specLoop x w).1.length := by
    intro w
    rw [specLoop_fst_length]
    omega
  rw [if_pos (by omega), if_pos (hx _)]

/-- The case for the length `t` succeeds exactly on a slice of at least `t`
bytes: it reads `k[t-1]` and no byte beyond it. -/
theorem case_isSome_iff (k : List Byte) (w : Work) :
    ((case1 k w).isSome ↔ 1 ≤ k.length) ∧ ((case2 k w).isSome ↔ 2 ≤ k.length) ∧
    ((case3 k w).isSome ↔ 3 ≤ k.length) ∧ ((case4 k w).isSome ↔ 4 ≤ k.length) ∧
    ((case5 k w).isSome ↔ 5 ≤ k.length) ∧ ((case6 k w).isSome ↔ 6 ≤ k.length) ∧
    ((case7 k w).isSome ↔ 7 ≤ k.length) ∧ ((case8 k w).isSome ↔ 8 ≤ k.length) ∧
    ((case9 k w).isSome ↔ 9 ≤ k.length) ∧ ((case10 k w).isSome ↔ 10 ≤ k.length) ∧
    ((case11 k w).isSome ↔ 11 ≤ k.length) ∧ ((case12 k w).isSome ↔ 12 ≤ k.length) := by
  rcases k with _ | ⟨k0, _ | ⟨k1, _ | ⟨k2, _ | ⟨k3, _ | ⟨k4, _ | ⟨k5, _ | ⟨k6, _ | ⟨k7, _ | ⟨k8,
    _ | ⟨k9, _ | ⟨k10, _ | ⟨k11, rest⟩⟩⟩⟩⟩⟩⟩⟩⟩⟩⟩⟩
  all_goals
    simp [case12, case11, case10, case9, case8, case7, case6, case5, case4, case3, case2, case1]

/-- The observers leave the state as it is. -/
theorem call_observer (s s1 : sum64) (c : Call) (r : Ret) (hc : c.isObserver = true)
    (h : s.call c = some (s1, r)) : s1 = s := by
  cases c <;> simp [Call.isObserver, sum64.call] at hc h <;> exact h.1.symm

/-- A sequence of observers leaves the state as it is. -/
theorem run_observers (s : sum64) (cs : List Call) (h : ∀ c ∈ cs, c.isObserver = true) :
    ∃ rs : List Ret, s.run cs = some (s, rs) ∧ rs.length = cs.length := by
  induction cs with
  | nil => exact ⟨[], rfl, rfl⟩
  | cons c cs ih =>
    obtain ⟨rs, hrs, hl⟩ := ih (fun c1 h1 => h c1 (List.mem_cons_of_mem _ h1))
    have hc := h c (List.mem_cons_self _ _)
    cases c <;> simp [Call.isObserver] at hc <;>
      simp [sum64.run, sum64.call, hrs, hl]

/-- A call that leaves the state as it is returns the same value each time. -/
theorem run_replicate (s : sum64) (c : Call) (r : Ret) (h : s.call c = some (s, r)) (n : Nat) :
    s.run (List.replicate n c) = some (s, List.replicate n r) := by
  induction n with
  | zero => rfl
  | succ n ih => simp [List.replicate_succ, sum64.run, h, ih]

/-! ## The claims -/

/-- C1. Legacy equivalence. For every byte sequence `x`, `Write(x)` on a
zero-seeded hasher, be it new from `HashLittle2()` or just `Reset`, returns,
and the upper 32 bits of `Sum64()` are then Jenkins' `hashlittle(x, 0)`. -/
theorem legacy_equivalence (x : List Byte) :
    (∃ r : WriteResult, HashLittle2.Write x = some r ∧ r.s.Sum64 >>> 32 = hashlittle x 0) ∧
    (∀ s : sum64, ∃ r : WriteResult, s.Reset.Write x = some r ∧
      r.s.Sum64 >>> 32 = hashlittle x 0) := by
  have key : ∃ r : WriteResult, HashLittle2.Write x = some r ∧
      r.s.Sum64 >>> 32 = hashlittle x 0 := by
    refine ⟨_, Write_eq_specWrite _ _, ?_⟩
    rw [Sum64_shiftRight _ (specState_wf _ _ _)]
    exact specWrite_zero_eq_hashlittle x
  exact ⟨key, fun _ => key⟩

/-- C2, as stated, fails: the table `golden32` does not have 37 entries. -/
theorem golden32_not_37_entries :
    ¬ (golden32.length = 37 ∧ ∀ g ∈ golden32, goldenHolds g) := by
  intro h
  exact absurd h.1 (by decide)

/-- C2, amended. The table `golden32` has 36 entries; for every one of them
`Reset` followed by `Write(text)` returns `(len(text), nil)`, the first four
bytes of `Sum(nil)` are `sum`, and `Sum64() >> 32` is `u64`. The seven vectors
that the claim names are in the table, and the last of them has 24 bytes. -/
theorem golden32_vectors :
    golden32.length = 36 ∧
    (∀ g ∈ golden32, goldenHolds g) ∧
    (∀ p ∈ [("", 0xdeadbeef), ("a", 0x58d68708), ("ab", 0xfbb3a8df), ("abc", 0x0e397631),
        ("C", 0xaabe02cb), ("67", 0x33eac7d8), ("J4b58TgCOdroAvWzHN1HFZQQ", 0xb083cce3)],
      ∃ g ∈ golden32, g.text = p.1 ∧ g.u64 = p.2) ∧
    (bytesOf "J4b58TgCOdroAvWzHN1HFZQQ").length = 24 := by
  refine ⟨by decide, fun g hg => goldenHolds_of_check g (golden32_check g hg), by decide, by decide⟩

/-- C3. From every prior state `(c0, b0)` and for every byte sequence `data`,
`Write(data)` returns and leaves as `(c, b)` what the algorithm of the
specification computes from `(c0, b0)` and `data`. -/
theorem Write_implements_algorithm (c0 b0 : Nat) (data : List Byte) :
    ∃ r : WriteResult, (sum64.mk c0 b0).Write data = some r ∧
      r.s.c = (specWrite c0 b0 data).1 ∧ r.s.b = (specWrite c0 b0 data).2 :=
  ⟨_, Write_eq_specWrite _ _, rfl, rfl⟩

/-- C4 fails on the code. A second `Write` with no `Reset` in between is not
rejected: after `Write("a")` on a new hasher, `Write("b")` returns `(1, nil)`
and replaces the digest. -/
theorem second_Write_not_rejected :
    HashLittle2.Write (bytesOf "a") = some ⟨⟨0x58d68708, 0x582647ac⟩, 1, none⟩ ∧
    (sum64.mk 0x58d68708 0x582647ac).Write (bytesOf "b")
      = some ⟨⟨0x60ec4574, 0xfb413b71⟩, 1, none⟩ := by
  constructor
  · rw [Write_eq_specWrite]; decide
  · rw [Write_eq_specWrite]; decide

/-- C5. For every byte sequence `data`, the empty one included, `Write(data)`
on a zero-seeded hasher returns `(len(data), nil)`. -/
theorem Write_returns_length_and_nil (data : List Byte) :
    ∃ r : WriteResult, HashLittle2.Write data = some r ∧ r.n = data.length ∧ r.err = none :=
  ⟨_, Write_eq_specWrite _ _, rfl, rfl⟩

/-- C6. History independence after `Reset`. From every state `s`, whatever
calls led to it, `Reset` followed by `Write(x)` returns the same result, hence
leaves the same `(c, b)`, as `Write(x)` on a new hasher and as `Reset` followed
by `Write(x)` from any other state `t`. -/
theorem Reset_forgets_history (s t : sum64) (x : List Byte) :
    s.Reset.Write x = HashLittle2.Write x ∧
    s.Reset.Write x = t.Reset.Write x ∧
    (∃ r : WriteResult, s.Reset.Write x = some r ∧ HashLittle2.Write x = some r ∧
      t.Reset.Write x = some r) :=
  ⟨rfl, rfl, _, Write_eq_specWrite _ _, Write_eq_specWrite _ _, Write_eq_specWrite _ _⟩

/-- C7. For every state `s`, `Reset` leaves `c = 0` and `b = 0`, so that
`Sum64()` is 0, and a second `Reset` changes nothing. -/
theorem Reset_clears_idempotent (s : sum64) :
    s.Reset.c = 0 ∧ s.Reset.b = 0 ∧ s.Reset.Sum64 = 0 ∧ s.Reset.Reset = s.Reset := by
  refine ⟨rfl, rfl, ?_, rfl⟩
  simp [sum64.Sum64, sum64.Reset]

/-- C8. Layout of `Sum`. For every state `(c, b)` and every `in`, `Sum(in)` is
`in` followed by eight bytes, `Size()` of them: `c` most significant byte
first, then `b` most significant byte first, which is the big-endian encoding
of `Sum64()`. `Sum(nil)` has length 8 and decodes to `Sum64()`. -/
theorem Sum_layout (s : sum64) (inp : List Byte) (h : s.wf) :
    s.Sum inp = inp ++ [toByte (s.c >>> 24), toByte (s.c >>> 16), toByte (s.c >>> 8), toByte s.c,
      toByte (s.b >>> 24), toByte (s.b >>> 16), toByte (s.b >>> 8), toByte s.b] ∧
    s.Sum inp = inp ++ [toByte (s.Sum64 >>> 56), toByte (s.Sum64 >>> 48), toByte (s.Sum64 >>> 40),
      toByte (s.Sum64 >>> 32), toByte (s.Sum64 >>> 24), toByte (s.Sum64 >>> 16),
      toByte (s.Sum64 >>> 8), toByte s.Sum64] ∧
    (s.Sum inp).length = inp.length + s.Size ∧
    (s.Sum []).length = 8 ∧
    beDecode (s.Sum []) = s.Sum64 := by
  have hv := Sum64_eq_add s h
  obtain ⟨hc, hb⟩ := h
  refine ⟨?_, Sum_eq s inp, ?_, ?_, ?_⟩
  · rw [Sum_eq, hv]
    simp only [Nat.shiftRight_eq_div_pow]
    congr 1
    simp only [List.cons.injEq, and_true]
    refine ⟨?_, ?_, ?_, ?_, ?_, ?_, ?_, ?_⟩ <;> apply toByte_eq <;> omega
  · simp [Sum_eq, sum64.Size]
  · simp [Sum_eq]
  · rw [Sum_eq, hv]
    simp only [beDecode, toByte, Nat.shiftRight_eq_div_pow, List.nil_append, List.foldl_cons,
      List.foldl_nil]
    omega

/-- The layout of `Sum` at the state left by `Write("a")`. -/
theorem Sum_layout_witness :
    (sum64.mk 0x58d68708 0x582647ac).wf ∧
    beDecode ((sum64.mk 0x58d68708 0x582647ac).Sum []) = (sum64.mk 0x58d68708 0x582647ac).Sum64 :=
  ⟨by decide, (Sum_layout (sum64.mk 0x58d68708 0x582647ac) [] (by decide)).2.2.2.2⟩

/-- C9. Packing of `Sum64`. For every state `(c, b)`, `Sum64()` is
`(uint64(c) << 32) | uint64(b)`; its upper 32 bits are `c` and its lower 32
bits are `b`; two states with the same `Sum64()` are the same state. -/
theorem Sum64_packing (s t : sum64) (hs : s.wf) (ht : t.wf) :
    s.Sum64 = (s.c <<< 32) ||| s.b ∧
    s.Sum64 = s.c * 2 ^ 32 + s.b ∧
    s.Sum64 >>> 32 = s.c ∧
    s.Sum64 % 2 ^ 32 = s.b ∧
    s.Sum64 < 2 ^ 64 ∧
    (s.Sum64 = t.Sum64 → s = t) := by
  have hv := Sum64_eq_add s hs
  have hw := Sum64_eq_add t ht
  obtain ⟨hc, hb⟩ := hs
  obtain ⟨hc1, hb1⟩ := ht
  refine ⟨?_, hv, ?_, ?_, ?_, ?_⟩
  · unfold sum64.Sum64
    rw [Nat.shiftLeft_eq, Nat.mod_eq_of_lt (by omega)]
  · rw [hv, Nat.shiftRight_eq_div_pow]; omega
  · omega
  · omega
  · intro e
    rw [hv, hw] at e
    cases s; cases t
    simp only [sum64.mk.injEq] at *
    omega

/-- The packing of `Sum64` at the states left by `Write("a")` and `Write("ab")`. -/
theorem Sum64_packing_witness :
    (sum64.mk 0x58d68708 0x582647ac).wf ∧ (sum64.mk 0xfbb3a8df 0x6b79a0f2).wf ∧
    (sum64.mk 0x58d68708 0x582647ac).Sum64 >>> 32 = 0x58d68708 :=
  ⟨by decide, by decide,
    (Sum64_packing (sum64.mk 0x58d68708 0x582647ac) (sum64.mk 0xfbb3a8df 0x6b79a0f2)
      (by decide) (by decide)).2.2.1⟩

/-- C10. Empty input. On a zero-seeded hasher `Write` of the empty sequence
leaves `Sum64() = 0xdeadbeefdeadbeef`, whose upper 32 bits are `0xdeadbeef`.
From any prior state `(c0, b0)` it leaves `c = (0xdeadbeef + c0 + b0) mod 2^32`
and `b = (0xdeadbeef + c0) mod 2^32`, the seeded `c` and `b` themselves: neither
the mixing nor the finalization is applied. -/
theorem Write_empty (c0 b0 : Nat) :
    HashLittle2.Write [] = some ⟨⟨0xdeadbeef, 0xdeadbeef⟩, 0, none⟩ ∧
    (sum64.mk 0xdeadbeef 0xdeadbeef).Sum64 = 0xdeadbeefdeadbeef ∧
    (sum64.mk 0xdeadbeef 0xdeadbeef).Sum64 >>> 32 = 0xdeadbeef ∧
    (sum64.mk c0 b0).Write [] =
      some ⟨⟨(0xdeadbeef + c0 + b0) % 2 ^ 32, (0xdeadbeef + c0) % 2 ^ 32⟩, 0, none⟩ ∧
    (sum64.mk c0 b0).Write [] =
      some ⟨⟨(seed (sum64.mk c0 b0) []).c, (seed (sum64.mk c0 b0) []).b⟩, 0, none⟩ := by
  have hgen : (sum64.mk c0 b0).Write [] =
      some ⟨⟨(seed (sum64.mk c0 b0) []).c, (seed (sum64.mk c0 b0) []).b⟩, 0, none⟩ := by
    simp [sum64.Write, blockLoop, tailSwitch]
  refine ⟨?_, by decide, by decide, ?_, hgen⟩
  · rw [Write_eq_specWrite]; decide
  · rw [hgen]
    simp only [seed, add32, List.length_nil]
    simp

/-- C11. Non-composability. There are byte sequences `x` and `y`, here "a"
and "b", for which `Write(x)` followed by `Write(y)` on a zero-seeded hasher
leaves a `Sum64()` other than the one left by a single `Write(x ++ y)`. -/
theorem Write_not_composable :
    ∃ (x y : List Byte) (r1 r2 r3 : WriteResult),
      HashLittle2.Write x = some r1 ∧ r1.s.Write y = some r2 ∧
      HashLittle2.Write (x ++ y) = some r3 ∧ r2.s.Sum64 ≠ r3.s.Sum64 := by
  refine ⟨bytesOf "a", bytesOf "b", _, _, _, Write_eq_specWrite _ _, Write_eq_specWrite _ _,
    Write_eq_specWrite _ _, ?_⟩
  decide

/-- C12. Fixed metadata. In every state, before a `Write` and after a
`Write` of any input, `Size()` is 8 and `BlockSize()` is 1. -/
theorem Size_BlockSize_fixed (s : sum64) (data : List Byte) :
    s.Size = 8 ∧ s.BlockSize = 1 ∧
    ∃ r : WriteResult, s.Write data = some r ∧ r.s.Size = 8 ∧ r.s.BlockSize = 1 :=
  ⟨rfl, rfl, _, Write_eq_specWrite _ _, rfl, rfl⟩

/-- C13. Length sensitivity. The byte sequences "a" and "ab" differ, have
different lengths, the first is a prefix of the second, and their zero-seeded
digests `Sum64()` differ. -/
theorem length_sensitivity :
    ∃ (x y : List Byte) (r1 r2 : WriteResult),
      x = bytesOf "a" ∧ y = bytesOf "ab" ∧
      x ≠ y ∧ x.length ≠ y.length ∧ x <+: y ∧
      HashLittle2.Write x = some r1 ∧ HashLittle2.Write y = some r2 ∧
      r1.s.Sum64 ≠ r2.s.Sum64 := by
  refine ⟨bytesOf "a", bytesOf "ab", _, _, rfl, rfl, by decide, by decide, ?_,
    Write_eq_specWrite _ _, Write_eq_specWrite _ _, by decide⟩
  exact ⟨bytesOf "b", by decide⟩


/-- C14, as stated, fails. On the 24-byte input of the table the loop leaves
a tail of 12 bytes, not of 0, and `Write` stores neither the words with which
the loop is left nor those words after the last block is loaded and mixed:
it stores the finalized words, whose `c` is the expected `0xb083cce3`. -/
theorem final_not_bypassed_on_24_bytes :
    (bytesOf "J4b58TgCOdroAvWzHN1HFZQQ").length = 24 ∧
    ¬ finalBypassed HashLittle2 (bytesOf "J4b58TgCOdroAvWzHN1HFZQQ") ∧
    ∃ (k : List Byte) (w : Work) (r : WriteResult),
      blockLoop (bytesOf "J4b58TgCOdroAvWzHN1HFZQQ")
        (seed HashLittle2 (bytesOf "J4b58TgCOdroAvWzHN1HFZQQ")) = some (k, w) ∧
      k = bytesOf "AvWzHN1HFZQQ" ∧
      HashLittle2.Write (bytesOf "J4b58TgCOdroAvWzHN1HFZQQ") = some r ∧
      r.s.c = 0xb083cce3 ∧
      r.s ≠ ⟨w.c, w.b⟩ ∧
      r.s ≠ ⟨(mix (addWords k w)).c, (mix (addWords k w)).b⟩ := by
  refine ⟨by decide, ?_, ?_⟩
  · rintro ⟨k, w, hk, h0, _⟩
    rw [blockLoop_eq_specLoop] at hk
    simp only [Option.some.injEq] at hk
    have hl := specLoop_fst_length (bytesOf "J4b58TgCOdroAvWzHN1HFZQQ")
      (seed HashLittle2 (bytesOf "J4b58TgCOdroAvWzHN1HFZQQ"))
    rw [hk] at hl
    simp only [h0] at hl
    revert hl
    decide
  · refine ⟨_, _, _, blockLoop_eq_specLoop _ _, by decide, Write_eq_specWrite _ _, by decide,
      by decide, by decide⟩

/-- C14, amended. For every input whose length is a positive multiple of 12
the loop leaves as tail the last 12 bytes of the input; the `switch` folds
them into the working words and runs on into the finalization mix, whose
result `Write` stores. -/
theorem tail_on_multiples_of_12 (s : sum64) (data : List Byte) (hpos : 0 < data.length)
    (h12 : data.length % 12 = 0) :
    ∃ (k : List Byte) (w : Work),
      blockLoop data (seed s data) = some (k, w) ∧
      k = data.drop (data.length - 12) ∧ k.length = 12 ∧
      tailSwitch k w = some (Flow.next (addWords k w)) ∧
      s.Write data = some ⟨⟨(final (addWords k w)).c, (final (addWords k w)).b⟩,
        data.length, none⟩ := by
  have hb := blockLoop_eq_specLoop data (seed s data)
  have hf := specLoop_fst data (seed s data)
  have hl := specLoop_fst_length data (seed s data)
  have hwf := specLoop_wf data (seed s data) (seed_wf s data)
  have e : 12 * ((data.length - 1) / 12) = data.length - 12 := by omega
  have hl12 : (specLoop data (seed s data)).1.length = 12 := by omega
  refine ⟨_, _, hb, ?_, hl12, tailSwitch_eq_addWords _ _ hwf (by omega) (by omega), ?_⟩
  · rw [hf, e]
  · rw [Write_of_blockLoop s data _ _ hb, if_pos (by omega)]

/-- The amended C14 at the 12-byte input "AvWzHN1HFZQQ". -/
theorem tail_on_multiples_of_12_witness :
    0 < (bytesOf "AvWzHN1HFZQQ").length ∧ (bytesOf "AvWzHN1HFZQQ").length % 12 = 0 ∧
    ∃ (k : List Byte) (w : Work),
      blockLoop (bytesOf "AvWzHN1HFZQQ") (seed HashLittle2 (bytesOf "AvWzHN1HFZQQ")) = some (k, w) ∧
      k = (bytesOf "AvWzHN1HFZQQ").drop ((bytesOf "AvWzHN1HFZQQ").length - 12) ∧ k.length = 12 ∧
      tailSwitch k w = some (Flow.next (addWords k w)) ∧
      HashLittle2.Write (bytesOf "AvWzHN1HFZQQ") =
        some ⟨⟨(final (addWords k w)).c, (final (addWords k w)).b⟩,
          (bytesOf "AvWzHN1HFZQQ").length, none⟩ :=
  ⟨by decide, by decide,
    tail_on_multiples_of_12 HashLittle2 (bytesOf "AvWzHN1HFZQQ") (by decide) (by decide)⟩

/-- C15. For every input of length `n` the loop of `Write` terminates after
`(n - 1) div 12` passes and leaves a tail of `n - 12 * ((n - 1) div 12)` bytes,
at most 12, and at least 1 exactly when the input is not empty. The `switch`
runs on into the finalization exactly when the input is not empty, and
returns from `case 0` exactly when it is empty; `Write` stores the finalized
words in the first case and the words of the loop in the second. -/
theorem blockLoop_passes_and_tail (s : sum64) (data : List Byte) :
    ∃ (k : List Byte) (w : Work),
      blockLoopCount data (seed s data) = some (k, w, (data.length - 1) / 12) ∧
      blockLoop data (seed s data) = some (k, w) ∧
      k = data.drop (12 * ((data.length - 1) / 12)) ∧
      k.length = data.length - 12 * ((data.length - 1) / 12) ∧
      k.length ≤ 12 ∧
      (1 ≤ data.length ↔ 1 ≤ k.length) ∧
      (1 ≤ data.length ↔ tailSwitch k w = some (Flow.next (addWords k w))) ∧
      (data.length = 0 ↔ tailSwitch k w = some (Flow.ret ⟨w.c, w.b⟩)) ∧
      s.Write data = some ⟨(if 1 ≤ data.length then
          ⟨(final (addWords k w)).c, (final (addWords k w)).b⟩ else ⟨w.c, w.b⟩),
        data.length, none⟩ := by
  have hb := blockLoop_eq_specLoop data (seed s data)
  have hf := specLoop_fst data (seed s data)
  have hl := specLoop_fst_length data (seed s data)
  have hwf := specLoop_wf data (seed s data) (seed_wf s data)
  have hle := specLoop_length data (seed s data)
  have h1 : 1 ≤ data.length ↔ 1 ≤ (specLoop data (seed s data)).1.length := by omega
  refine ⟨_, _, blockLoopCount_eq _ _, hb, hf, hl, hle, h1, ?_, ?_, ?_⟩
  · constructor
    · intro h
      exact tailSwitch_eq_addWords _ _ hwf (h1.mp h) hle
    · intro h
      by_contra hn
      have h0 : (specLoop data (seed s data)).1 = [] := by
        apply List.eq_nil_of_length_eq_zero; omega
      rw [h0, tailSwitch_nil] at h
      simp at h
  · constructor
    · intro h
      have h0 : (specLoop data (seed s data)).1 = [] := by
        apply List.eq_nil_of_length_eq_zero; omega
      rw [h0, tailSwitch_nil]
    · intro h
      by_contra hn
      rw [tailSwitch_eq_addWords _ _ hwf (by omega) hle] at h
      simp at h
  · rw [Write_of_blockLoop s data _ _ hb]
    by_cases hd : 1 ≤ data.length
    · rw [if_pos hd, if_pos (h1.mp hd)]
    · rw [if_neg hd, if_neg (fun h => hd (h1.mpr h))]


/-- C16. Tail folding. For every tail `k` of 1 to 12 bytes and all working
words, the fall-through `switch` leaves the words of the guarded additions
`for n = 12 down to 1: if len(k) >= n ...`; these are the words obtained by
adding the three little-endian words of `k` padded with zero bytes. -/
theorem tail_folding_eq_guarded_additions (k : List Byte) (w : Work) (hw : w.wf)
    (h1 : 1 ≤ k.length) (h12 : k.length ≤ 12) :
    tailSwitch k w = some (Flow.next (guardedAdds k w)) ∧
    guardedAdds k w = addWords k w ∧
    guardedAdds k w = { a := add32 w.a (leWord k 0), b := add32 w.b (leWord k 4),
                        c := add32 w.c (leWord k 8) } := by
  have hs := tailSwitch_eq_guardedAdds k w h1 h12
  have ha := tailSwitch_eq_addWords k w hw h1 h12
  rw [hs] at ha
  simp only [Option.some.injEq, Flow.next.injEq] at ha
  exact ⟨hs, ha, ha⟩

/-- C16 at the 5-byte tail "abcde" and the words 1, 2, 3. -/
theorem tail_folding_witness :
    (Work.mk 1 2 3).wf ∧ 1 ≤ (bytesOf "abcde").length ∧ (bytesOf "abcde").length ≤ 12 ∧
    tailSwitch (bytesOf "abcde") (Work.mk 1 2 3)
      = some (Flow.next (guardedAdds (bytesOf "abcde") (Work.mk 1 2 3))) :=
  ⟨by decide, by decide, by decide,
    (tail_folding_eq_guarded_additions (bytesOf "abcde") (Work.mk 1 2 3) (by decide) (by decide)
      (by decide)).1⟩

/-- C17. The mixing step is a permutation of the triples of 32-bit words:
it maps such triples to such triples, `unmix` undoes it on either side, it is
injective, and every triple is the image of one. -/
theorem mix_bijective (w v : Work) (hw : w.wf) (hv : v.wf) :
    (mix w).wf ∧ (unmix w).wf ∧ unmix (mix w) = w ∧ mix (unmix w) = w ∧
    (mix w = mix v → w = v) ∧ (∃ u : Work, u.wf ∧ mix u = w) := by
  refine ⟨mix_wf w hw, unmix_wf w hw, unmix_mix w hw, mix_unmix w hw, ?_,
    ⟨unmix w, unmix_wf w hw, mix_unmix w hw⟩⟩
  intro e
  rw [← unmix_mix w hw, ← unmix_mix v hv, e]

/-- C17 at the triples (1, 2, 3) and (0xdeadbeef, 0, 0xffffffff). -/
theorem mix_bijective_witness :
    (Work.mk 1 2 3).wf ∧ (Work.mk 0xdeadbeef 0 0xffffffff).wf ∧
    unmix (mix (Work.mk 1 2 3)) = Work.mk 1 2 3 :=
  ⟨by decide, by decide,
    (mix_bijective (Work.mk 1 2 3) (Work.mk 0xdeadbeef 0 0xffffffff) (by decide) (by decide)).2.2.1⟩

/-- C18. For every `x` whose length is not a multiple of 12 and every prior
state `(c0, b0)`, `Write(x ++ [0x00])` from `(c0, b0)` leaves the same `(c, b)`
as `Write(x)` from `((c0 + 1) mod 2^32, b0)`. -/
theorem trailing_zero_vs_seed (c0 b0 : Nat) (x : List Byte) (h : x.length % 12 ≠ 0) :
    ∃ r1 r2 : WriteResult,
      (sum64.mk c0 b0).Write (x ++ [(0 : Byte)]) = some r1 ∧
      (sum64.mk ((c0 + 1) % 2 ^ 32) b0).Write x = some r2 ∧
      r1.s = r2.s := by
  refine ⟨_, _, Write_eq_specWrite _ _, Write_eq_specWrite _ _, ?_⟩
  simp only [specWrite_append_zero c0 b0 x h]

/-- C18 at `x = "abc"` and the prior state (7, 9). -/
theorem trailing_zero_vs_seed_witness :
    (bytesOf "abc").length % 12 ≠ 0 ∧
    ∃ r1 r2 : WriteResult,
      (sum64.mk 7 9).Write (bytesOf "abc" ++ [(0 : Byte)]) = some r1 ∧
      (sum64.mk ((7 + 1) % 2 ^ 32) 9).Write (bytesOf "abc") = some r2 ∧
      r1.s = r2.s :=
  ⟨by decide, trailing_zero_vs_seed 7 9 (bytesOf "abc") (by decide)⟩

/-- C19. Index safety. The twelve reads of the loop body succeed exactly on
a slice of at least 12 bytes, and the loop, which makes them only while
`len(k) > 12`, never fails; the case for the length `t` of the `switch`
succeeds exactly on a slice of at least `t` bytes, and the `switch` never
fails; hence `Write` returns for every state and every input. -/
theorem Write_index_safe (s : sum64) (data k : List Byte) (w : Work) :
    ((loadBlock k w).isSome ↔ 12 ≤ k.length) ∧
    (blockLoop k w).isSome ∧
    ((case1 k w).isSome ↔ 1 ≤ k.length) ∧ ((case2 k w).isSome ↔ 2 ≤ k.length) ∧
    ((case3 k w).isSome ↔ 3 ≤ k.length) ∧ ((case4 k w).isSome ↔ 4 ≤ k.length) ∧
    ((case5 k w).isSome ↔ 5 ≤ k.length) ∧ ((case6 k w).isSome ↔ 6 ≤ k.length) ∧
    ((case7 k w).isSome ↔ 7 ≤ k.length) ∧ ((case8 k w).isSome ↔ 8 ≤ k.length) ∧
    ((case9 k w).isSome ↔ 9 ≤ k.length) ∧ ((case10 k w).isSome ↔ 10 ≤ k.length) ∧
    ((case11 k w).isSome ↔ 11 ≤ k.length) ∧ ((case12 k w).isSome ↔ 12 ≤ k.length) ∧
    (tailSwitch k w).isSome ∧
    (s.Write data).isSome ∧
    ∃ r : WriteResult, s.Write data = some r := by
  refine ⟨loadBlock_isSome_iff k w, ?_, ?_⟩
  · rw [blockLoop_eq_specLoop]; rfl
  · have h := case_isSome_iff k w
    refine ⟨h.1, h.2.1, h.2.2.1, h.2.2.2.1, h.2.2.2.2.1, h.2.2.2.2.2.1, h.2.2.2.2.2.2.1,
      h.2.2.2.2.2.2.2.1, h.2.2.2.2.2.2.2.2.1, h.2.2.2.2.2.2.2.2.2.1, h.2.2.2.2.2.2.2.2.2.2.1,
      h.2.2.2.2.2.2.2.2.2.2.2, tailSwitch_isSome k w, ?_, _, Write_eq_specWrite s data⟩
    rw [Write_eq_specWrite]; rfl

/-- C20. Observers are read-only. `Sum(in)`, `Sum64()`, `Size()` and
`BlockSize()` leave the state as it is; so does any sequence of them; after
one `Write` any number of calls of `Sum64()`, or of `Sum(in)`, return the same
value each time; and a call that changes the state is a `Reset` or a `Write`. -/
theorem observers_read_only (s : sum64) (inp data : List Byte) (cs : List Call) (n : Nat) :
    s.call (Call.Sum inp) = some (s, Ret.bytes (s.Sum inp)) ∧
    s.call Call.Sum64 = some (s, Ret.uint64 s.Sum64) ∧
    s.call Call.Size = some (s, Ret.int 8) ∧
    s.call Call.BlockSize = some (s, Ret.int 1) ∧
    (∃ rs : List Ret, s.run (cs.filter Call.isObserver) = some (s, rs)) ∧
    (∃ r : WriteResult, s.Write data = some r ∧
      s.run (Call.Write data :: List.replicate n Call.Sum64)
        = some (r.s, Ret.written r.n r.err :: List.replicate n (Ret.uint64 r.s.Sum64)) ∧
      s.run (Call.Write data :: List.replicate n (Call.Sum inp))
        = some (r.s, Ret.written r.n r.err :: List.replicate n (Ret.bytes (r.s.Sum inp)))) ∧
    (∀ (c : Call) (s1 : sum64) (r : Ret), s.call c = some (s1, r) → s1 ≠ s →
      c = Call.Reset ∨ ∃ d, c = Call.Write d) := by
  refine ⟨rfl, rfl, rfl, rfl, ?_, ?_, ?_⟩
  · obtain ⟨rs, h, _⟩ := run_observers s (cs.filter Call.isObserver)
      (fun c hc => (List.mem_filter.mp hc).2)
    exact ⟨rs, h⟩
  · refine ⟨_, Write_eq_specWrite s data, ?_, ?_⟩
    · simp only [sum64.run, sum64.call, Write_eq_specWrite s data]
      rw [run_replicate _ Call.Sum64 _ rfl n]
    · simp only [sum64.run, sum64.call, Write_eq_specWrite s data]
      rw [run_replicate _ (Call.Sum inp) _ rfl n]
  · intro c s1 r h hne
    cases c with
    | Reset => exact Or.inl rfl
    | Write d => exact Or.inr ⟨d, rfl⟩
    | Size => simp [sum64.call] at h; exact absurd h.1.symm hne
    | BlockSize => simp [sum64.call] at h; exact absurd h.1.symm hne
    | Sum i => simp [sum64.call] at h; exact absurd h.1.symm hne
    | Sum64 => simp [sum64.call] at h; exact absurd h.1.symm hne

end hashlittle2
